import Mathlib

/-!
Verification of the consistent-hashing core (package `core`) of the
consistent-hashing-demo repository: a consistent-hashing ring with
bounded-load host selection.

The Go code is shallowly embedded:
* Go maps become association lists (`lookupA`/`insertA`/`eraseA` with the
  write-in-place / delete semantics of Go map operations);
* the pluggable `hashFunc` member is carried as an explicit parameter
  `hashFunc : String → Nat` (hash values are `uint64`; only comparisons are
  performed on them, so `Nat` is adequate);
* `int`/`int64` arithmetic is `Int` with Go's truncating division `Int.tdiv`;
* the `float64` capacity computations stay exact for all realistic loads
  (`|value| < 2^51`), so they are modelled by exact integer arithmetic;
* panics (nil-map dereference, index out of range, integer division by zero)
  and divergence are modelled by `Option`.
-/

namespace CHash

/-- The error values of core/errors.go. -/
inductive Err where
  | hostAlreadyExists
  | hostNotFound
deriving DecidableEq, Repr

/-- Go map read `m[k]` (the association lists below never hold a key twice,
because writes go through `insertA`). -/
def lookupA {α β : Type} [DecidableEq α] : List (α × β) → α → Option β
  | [], _ => none
  | (k', v) :: t, k => if k' = k then some v else lookupA t k

/-- Go map write `m[k] = v`: replaces the binding in place if present,
otherwise adds one. -/
def insertA {α β : Type} [DecidableEq α] : List (α × β) → α → β → List (α × β)
  | [], k, v => [(k, v)]
  | (k', v') :: t, k, v => if k' = k then (k, v) :: t else (k', v') :: insertA t k v

/-- Go map delete `delete(m, k)`. -/
def eraseA {α β : Type} [DecidableEq α] : List (α × β) → α → List (α × β)
  | [], _ => []
  | (k', v') :: t, k => if k' = k then t else (k', v') :: eraseA t k

/-- The state of `core.Consistent`.  `hostMap` maps a host name to its
`LoadBound` (the `Host.Name` field of core/host.go merely repeats the key);
`replicaHostMap` maps a virtual-node hash to its owning host name;
`sortedHostsHashSet` is the hash ring. -/
structure Consistent where
  replicaNum : Nat
  totalLoad : Int
  hostMap : List (String × Int)
  replicaHostMap : List (Nat × String)
  sortedHostsHashSet : List Nat
deriving DecidableEq, Repr

/-- `NewConsistent` (the `hashFunc` member is passed to each operation
instead of being stored). -/
def NewConsistent (replicaNum : Int) : Consistent :=
  { replicaNum := if replicaNum ≤ 0 then 10 else replicaNum.toNat
    totalLoad := 0
    hostMap := []
    replicaHostMap := []
    sortedHostsHashSet := [] }

/-- The virtual-node hashes of a host:
`hashFunc(fmt.Sprintf("%s%d", hostName, i))` for `i ∈ [0, replicaNum)`. -/
def hostHashes (hashFunc : String → Nat) (replicaNum : Nat) (hostName : String) : List Nat :=
  (List.range replicaNum).map (fun i => hashFunc (hostName ++ toString i))

/-- `RegisterHost`: reject a duplicate, otherwise create the host with load 0,
insert each replica hash into `replicaHostMap`, append it to the ring, and
re-sort the ring ascending (`sort.Slice` with `<`, i.e. a sorted permutation). -/
def RegisterHost (hashFunc : String → Nat) (c : Consistent) (hostName : String) :
    Option Err × Consistent :=
  if (lookupA c.hostMap hostName).isSome then (some .hostAlreadyExists, c)
  else
    let hs := hostHashes hashFunc c.replicaNum hostName
    (none,
      { c with
        hostMap := insertA c.hostMap hostName 0
        replicaHostMap := hs.foldl (fun m h => insertA m h hostName) c.replicaHostMap
        sortedHostsHashSet := List.insertionSort (· ≤ ·) (c.sortedHostsHashSet ++ hs) })

/-- Midpoint lower bound for Go's truncating `(l + r) / 2`. -/
theorem le_tdiv_two (l r : Int) (h : l ≤ r) : l ≤ (l + r).tdiv 2 := by
  rcases le_or_lt 0 (l + r) with h0 | h0
  · rw [Int.tdiv_eq_ediv h0 (by norm_num)]
    rw [Int.le_ediv_iff_mul_le (by norm_num : (0 : Int) < 2)]
    omega
  · have ha : (0 : Int) ≤ -(l + r) := by omega
    have hne : (l + r).tdiv 2 = -((-(l + r)).tdiv 2) := by
      rw [← Int.neg_tdiv, neg_neg]
    rw [hne, Int.tdiv_eq_ediv ha (by norm_num), le_neg]
    have h2 : -(l + r) / 2 < -l + 1 := by
      rw [Int.ediv_lt_iff_lt_mul (by norm_num : (0 : Int) < 2)]
      omega
    omega

/-- Midpoint upper bound for Go's truncating `(l + r) / 2`. -/
theorem tdiv_two_le (l r : Int) (h : l ≤ r) : (l + r).tdiv 2 ≤ r := by
  rcases le_or_lt 0 (l + r) with h0 | h0
  · rw [Int.tdiv_eq_ediv h0 (by norm_num)]
    have h2 : (l + r) / 2 < r + 1 := by
      rw [Int.ediv_lt_iff_lt_mul (by norm_num : (0 : Int) < 2)]
      omega
    omega
  · have ha : (0 : Int) ≤ -(l + r) := by omega
    have hne : (l + r).tdiv 2 = -((-(l + r)).tdiv 2) := by
      rw [← Int.neg_tdiv, neg_neg]
    rw [hne, Int.tdiv_eq_ediv ha (by norm_num), neg_le]
    rw [Int.le_ediv_iff_mul_le (by norm_num : (0 : Int) < 2)]
    omega

/-- The binary-search loop inside `delHashIndex`: Go `int` variables `l`, `r`
(`r` starts at `len-1`, possibly `-1`), midpoint by truncating division.
Returns the index at which `val` was found, `none` if the loop ends with
`idx == -1`.  (`arr[m]` is `getD`; the default is never reached because the
loop keeps `0 ≤ l ≤ m ≤ r < arr.length`.) -/
def delFind (arr : List Nat) (val : Nat) (l r : Int) : Option Int :=
  if h : l ≤ r then
    let m := (l + r).tdiv 2
    let am := arr.getD m.toNat 0
    if am = val then some m
    else if am < val then delFind arr val (m + 1) r
    else delFind arr val l (m - 1)
  else none
termination_by (r + 1 - l).toNat
decreasing_by
  · have h1 := le_tdiv_two l r h
    have h2 := tdiv_two_le l r h
    omega
  · have h1 := le_tdiv_two l r h
    have h2 := tdiv_two_le l r h
    omega

/-- `delHashIndex`: binary search for `val` over the sorted ring, then the
in-place splice `append(arr[:idx], arr[idx+1:]...)`. -/
def delHashIndex (arr : List Nat) (val : Nat) : List Nat :=
  match delFind arr val 0 ((arr.length : Int) - 1) with
  | some idx => arr.eraseIdx idx.toNat
  | none => arr

/-- `UnregisterHost`: reject an unknown host, otherwise remove the registry
entry, then for each replica hash delete the `replicaHostMap` binding and
remove one ring occurrence via `delHashIndex`. -/
def UnregisterHost (hashFunc : String → Nat) (c : Consistent) (hostName : String) :
    Option Err × Consistent :=
  if (lookupA c.hostMap hostName).isSome then
    let c1 := { c with hostMap := eraseA c.hostMap hostName }
    (none,
      (hostHashes hashFunc c.replicaNum hostName).foldl
        (fun acc h =>
          { acc with
            replicaHostMap := eraseA acc.replicaHostMap h
            sortedHostsHashSet := delHashIndex acc.sortedHostsHashSet h }) c1)
  else (some .hostNotFound, c)

/-- `UpdateLoad`: silently ignore an unknown host, otherwise adjust the
aggregate by the delta and set the host's load. -/
def UpdateLoad (c : Consistent) (host : String) (load : Int) : Consistent :=
  match lookupA c.hostMap host with
  | none => c
  | some old =>
    { c with
      totalLoad := c.totalLoad - old + load
      hostMap := insertA c.hostMap host load }

/-- `Hosts`: the snapshot list of registered host names. -/
def Hosts (c : Consistent) : List String := c.hostMap.map Prod.fst

/-- `Inc`: `atomic.AddInt64(&c.hostMap[hostName].LoadBound, 1)` plus the
aggregate.  On an unregistered host the map read yields a nil `*Host` and the
add dereferences it: a panic, modelled by `none`. -/
def Inc (c : Consistent) (hostName : String) : Option Consistent :=
  match lookupA c.hostMap hostName with
  | none => none
  | some v =>
    some
      { c with
        hostMap := insertA c.hostMap hostName (v + 1)
        totalLoad := c.totalLoad + 1 }

/-- `Done`: no-op on an unknown host, otherwise decrement the host's load and
the aggregate by 1. -/
def Done (c : Consistent) (host : String) : Consistent :=
  match lookupA c.hostMap host with
  | none => c
  | some v =>
    { c with
      hostMap := insertA c.hostMap host (v - 1)
      totalLoad := c.totalLoad - 1 }

/-- `GetLoads`: the snapshot mapping of every host to its load. -/
def GetLoads (c : Consistent) : List (String × Int) := c.hostMap

/-- `math.Ceil(a * (1 + loadBoundFactor))` for an integral `a` with
`loadBoundFactor = 0.25`, computed exactly: `⌈5a/4⌉ = ⌊(5a+3)/4⌋`
(`/` on `Int` is floor division).  Exact because `float64` represents the
intermediate values exactly for `|a| < 2^51`. -/
def goCeil125 (a : Int) : Int := (5 * a + 3) / 4

/-- `MaxLoad`.  When `totalLoad == 0` the receiver itself is set to 1 (a
persistent mutation), then `totalLoad / int64(len(c.hostMap))`: with no
registered host this is an integer division by zero, a Go panic (`none`).
The zero quotient is replaced by 1 before the ceiling. -/
def MaxLoad (c : Consistent) : Option (Int × Consistent) :=
  let c1 := if c.totalLoad = 0 then { c with totalLoad := 1 } else c
  if c1.hostMap.length = 0 then none
  else
    let avg0 : Int := c1.totalLoad.tdiv c1.hostMap.length
    let avg : Int := if avg0 = 0 then 1 else avg0
    some (goCeil125 avg, c1)

/-- Go `sort.Search(n, f)`, modelled by its documented contract: the smallest
`i ∈ [0, n)` with `f i = true`, or `n` if there is none (`f` is monotone at
every call site here, the case its binary search is specified for).
`List.findIdx` over `range n` returns exactly this value. -/
def sortSearch (n : Nat) (f : Nat → Bool) : Nat := (List.range n).findIdx f

/-- `searchKey`: first ring index whose hash is `≥ key`, wrapping to 0. -/
def searchKey (c : Consistent) (key : Nat) : Nat :=
  let idx := sortSearch c.sortedHostsHashSet.length
    (fun i => key ≤ c.sortedHostsHashSet.getD i 0)
  if c.sortedHostsHashSet.length ≤ idx then 0 else idx

/-- `GetKey`: hash the key, find the successor index, return the owning host.
On an empty ring `c.sortedHostsHashSet[idx]` is an index-out-of-range panic
(`none`); a hash missing from `replicaHostMap` reads Go's zero value `""`. -/
def GetKey (hashFunc : String → Nat) (c : Consistent) (key : String) : Option String :=
  let hashedKey := hashFunc key
  let idx := searchKey c hashedKey
  match c.sortedHostsHashSet[idx]? with
  | none => none
  | some hv => some ((lookupA c.replicaHostMap hv).getD "")

/-- The safety clamp at the top of `checkLoadCapacity`:
`if c.totalLoad < 0 { c.totalLoad = 0 }` — a receiver mutation. -/
def clampState (c : Consistent) : Consistent :=
  if c.totalLoad < 0 then { c with totalLoad := 0 } else c

/-- `checkLoadCapacity`: clamp a negative aggregate, compute the capacity
`ceil(((totalLoad+1) / len(hostMap)) * 1.25)` (integer division first, zero
quotient replaced by 1), fail with `HostNotFound` for an unknown candidate,
otherwise test `LoadBound + 1 <= capacity`.  With no registered host the
integer division by zero panics (`none`). -/
def checkLoadCapacity (c : Consistent) (host : String) :
    Option (Except Err Bool × Consistent) :=
  let c1 := clampState c
  if c1.hostMap.length = 0 then none
  else
    let avg0 : Int := (c1.totalLoad + 1).tdiv c1.hostMap.length
    let avg : Int := if avg0 = 0 then 1 else avg0
    match lookupA c1.hostMap host with
    | none => some (.error .hostNotFound, c1)
    | some lb => some (.ok (decide (lb + 1 ≤ goCeil125 avg)), c1)

/-- The unbounded scan loop of `GetKeyLeast`, with an explicit iteration
budget `fuel`; `none` models divergence of the Go loop (or a panic inside
it).  The wrap test is Go's `i >= len(c.replicaHostMap)`. -/
def getKeyLeastLoop (c : Consistent) (i : Nat) :
    Nat → Option (Except Err String × Consistent)
  | 0 => none
  | fuel + 1 =>
    match c.sortedHostsHashSet[i]? with
    | none => none
    | some hv =>
      match checkLoadCapacity c ((lookupA c.replicaHostMap hv).getD "") with
      | none => none
      | some (.error e, c') => some (.error e, c')
      | some (.ok true, c') => some (.ok ((lookupA c.replicaHostMap hv).getD ""), c')
      | some (.ok false, c') =>
        getKeyLeastLoop c'
          (if c'.replicaHostMap.length ≤ i + 1 then 0 else i + 1) fuel

/-- `GetKeyLeast`: fail on an empty ring, otherwise scan forward from the
successor index until `checkLoadCapacity` accepts a host. -/
def GetKeyLeast (hashFunc : String → Nat) (c : Consistent) (key : String) (fuel : Nat) :
    Option (Except Err String × Consistent) :=
  if c.replicaHostMap.length = 0 then some (.error .hostNotFound, c)
  else getKeyLeastLoop c (searchKey c (hashFunc key)) fuel

/-- Sum of the per-host load counters. -/
def sumLoads (hostMap : List (String × Int)) : Int := (hostMap.map Prod.snd).sum

/-- A ring-membership operation. -/
inductive RegOp where
  | reg (h : String)
  | unreg (h : String)

/-- Apply one membership operation, keeping the state whether it succeeded
or failed. -/
def applyRegOp (hashFunc : String → Nat) (c : Consistent) : RegOp → Consistent
  | .reg h => (RegisterHost hashFunc c h).2
  | .unreg h => (UnregisterHost hashFunc c h).2

/-- Apply a sequence of membership operations. -/
def applyRegOps (hashFunc : String → Nat) (ops : List RegOp) (c : Consistent) :
    Consistent :=
  ops.foldl (applyRegOp hashFunc) c

/-- Representation invariant maintained by every ring mutation (collisions
allowed): the ring is sorted, it is — as a multiset — the concatenation of
the replica hashes of the registered hosts, and registry keys are distinct. -/
def ringInv (hashFunc : String → Nat) (c : Consistent) : Prop :=
  List.Sorted (· ≤ ·) c.sortedHostsHashSet ∧
  List.Perm c.sortedHostsHashSet
    ((c.hostMap.map Prod.fst).flatMap (hostHashes hashFunc c.replicaNum)) ∧
  (c.hostMap.map Prod.fst).Nodup

/-- Collision-free well-formedness, satisfied by every state the operations
build whenever no two virtual-node hashes collide: sorted ring, ring values =
`replicaHostMap` keys (as multisets, hence without duplicates), distinct
registry keys, every mapped hash owned by a registered host, every registered
host owning at least one mapped hash, and the ring length law. -/
def wf (c : Consistent) : Prop :=
  List.Sorted (· ≤ ·) c.sortedHostsHashSet ∧
  List.Perm c.sortedHostsHashSet (c.replicaHostMap.map Prod.fst) ∧
  (c.hostMap.map Prod.fst).Nodup ∧
  (c.replicaHostMap.map Prod.fst).Nodup ∧
  (∀ p ∈ c.replicaHostMap, (lookupA c.hostMap p.2).isSome) ∧
  (∀ q ∈ c.hostMap, ∃ p ∈ c.replicaHostMap, p.2 = q.1) ∧
  c.sortedHostsHashSet.length = c.hostMap.length * c.replicaNum

/-- The spec's description of the plain selector: binary search for the first
ring entry `≥ hash(key)`, wrapping to index 0 when none exists, and return
the owning host. -/
def getKeySpec (hashFunc : String → Nat) (c : Consistent) (key : String) :
    Option String :=
  match c.sortedHostsHashSet.find? (fun v => hashFunc key ≤ v) with
  | some v => some ((lookupA c.replicaHostMap v).getD "")
  | none =>
    match c.sortedHostsHashSet.head? with
    | some v => some ((lookupA c.replicaHostMap v).getD "")
    | none => none

/-! ### Association-list lemmas -/

theorem lookupA_eq_none {α β : Type} [DecidableEq α] {l : List (α × β)} {k : α} :
    lookupA l k = none ↔ k ∉ l.map Prod.fst := by
  induction l with
  | nil => simp [lookupA]
  | cons p t ih =>
    obtain ⟨k', v⟩ := p
    by_cases h : k' = k
    · subst h
      simp [lookupA]
    · simp only [lookupA, if_neg h, List.map_cons, List.mem_cons]
      rw [ih]
      have hne : ¬k = k' := fun hh => h hh.symm
      tauto

theorem lookupA_isSome {α β : Type} [DecidableEq α] {l : List (α × β)} {k : α} :
    (lookupA l k).isSome ↔ k ∈ l.map Prod.fst := by
  rcases hl : lookupA l k with _ | v
  · simp [lookupA_eq_none.mp hl]
  · have hne : lookupA l k ≠ none := by simp [hl]
    have hm : k ∈ l.map Prod.fst := by
      by_contra hm
      exact hne (lookupA_eq_none.mpr hm)
    simp [hm]

theorem insertA_of_not_mem {α β : Type} [DecidableEq α] {l : List (α × β)} {k : α}
    (h : k ∉ l.map Prod.fst) (v : β) : insertA l k v = l ++ [(k, v)] := by
  induction l with
  | nil => simp [insertA]
  | cons p t ih =>
    obtain ⟨k', v'⟩ := p
    simp only [List.map_cons, List.mem_cons] at h
    push_neg at h
    simp [insertA, Ne.symm h.1, ih h.2]

theorem eraseA_of_not_mem {α β : Type} [DecidableEq α] {l : List (α × β)} {k : α}
    (h : k ∉ l.map Prod.fst) : eraseA l k = l := by
  induction l with
  | nil => simp [eraseA]
  | cons p t ih =>
    obtain ⟨k', v'⟩ := p
    simp only [List.map_cons, List.mem_cons] at h
    push_neg at h
    simp [eraseA, Ne.symm h.1, ih h.2]

theorem eraseA_append_of_not_mem {α β : Type} [DecidableEq α] {l t : List (α × β)}
    {k : α} (h : k ∉ l.map Prod.fst) (v : β) :
    eraseA (l ++ (k, v) :: t) k = l ++ t := by
  induction l with
  | nil => simp [eraseA]
  | cons p t' ih =>
    obtain ⟨k', v'⟩ := p
    simp only [List.map_cons, List.mem_cons] at h
    push_neg at h
    simp [eraseA, Ne.symm h.1, ih h.2]

theorem keys_eraseA {α β : Type} [DecidableEq α] (l : List (α × β)) (k : α) :
    (eraseA l k).map Prod.fst = (l.map Prod.fst).erase k := by
  induction l with
  | nil => simp [eraseA]
  | cons p t ih =>
    obtain ⟨k', v'⟩ := p
    by_cases h : k' = k
    · subst h
      simp [eraseA, List.erase_cons_head]
    · simp [eraseA, h, List.erase_cons_tail, ih]

theorem sumLoads_insertA {l : List (String × Int)} {k : String} {old : Int}
    (h : lookupA l k = some old) (v : Int) :
    sumLoads (insertA l k v) = sumLoads l - old + v := by
  induction l with
  | nil => simp [lookupA] at h
  | cons p t ih =>
    obtain ⟨k', v'⟩ := p
    by_cases hk : k' = k
    · subst hk
      simp [lookupA] at h
      subst h
      simp [insertA, sumLoads]
      ring
    · simp [lookupA, hk] at h
      simp [insertA, hk, sumLoads] at ih ⊢
      rw [ih h]
      ring

theorem sumLoads_eraseA {l : List (String × Int)} {k : String} {v : Int}
    (h : lookupA l k = some v) :
    sumLoads (eraseA l k) = sumLoads l - v := by
  induction l with
  | nil => simp [lookupA] at h
  | cons p t ih =>
    obtain ⟨k', v'⟩ := p
    by_cases hk : k' = k
    · subst hk
      simp [lookupA] at h
      subst h
      simp [eraseA, sumLoads]
    · simp [lookupA, hk] at h
      simp [eraseA, hk, sumLoads] at ih ⊢
      rw [ih h]
      ring

theorem lookupA_of_mem_nodup {α β : Type} [DecidableEq α] {l : List (α × β)}
    {k : α} {v : β} (hn : (l.map Prod.fst).Nodup) (hm : (k, v) ∈ l) :
    lookupA l k = some v := by
  induction l with
  | nil => simp at hm
  | cons p t ih =>
    obtain ⟨k', v'⟩ := p
    simp only [List.map_cons, List.nodup_cons] at hn
    rcases List.mem_cons.mp hm with h | h
    · injection h with h1 h2
      subst h1
      subst h2
      simp [lookupA]
    · have hk : k' ≠ k := by
        rintro rfl
        exact hn.1 (List.mem_map_of_mem Prod.fst h)
      simp [lookupA, hk, ih hn.2 h]

theorem keys_insertA_of_not_mem {α β : Type} [DecidableEq α] {l : List (α × β)}
    {k : α} (h : k ∉ l.map Prod.fst) (v : β) :
    (insertA l k v).map Prod.fst = l.map Prod.fst ++ [k] := by
  rw [insertA_of_not_mem h]
  simp

/-! ### Binary-search correctness for `delHashIndex` -/

theorem sorted_get_le {arr : List Nat} (hs : List.Sorted (· ≤ ·) arr)
    (i j : Fin arr.length) (hij : i ≤ j) : arr.get i ≤ arr.get j :=
  hs.rel_get_of_le hij

theorem delFind_sound (arr : List Nat) (val : Nat) :
    ∀ n l r, (r + 1 - l).toNat ≤ n → 0 ≤ l → r < (arr.length : Int) →
      ∀ m, delFind arr val l r = some m →
        0 ≤ m ∧ m.toNat < arr.length ∧ arr[m.toNat]? = some val := by
  intro n
  induction n with
  | zero =>
    intro l r hn h0 hr m hm
    rw [delFind] at hm
    rw [dif_neg (by omega)] at hm
    exact absurd hm (by simp)
  | succ n ih =>
    intro l r hn h0 hr m hm
    rw [delFind] at hm
    by_cases hlr : l ≤ r
    · rw [dif_pos hlr] at hm
      have hml := le_tdiv_two l r hlr
      have hmr := tdiv_two_le l r hlr
      have hmlen : ((l + r).tdiv 2).toNat < arr.length := by omega
      by_cases he : arr.getD ((l + r).tdiv 2).toNat 0 = val
      · rw [if_pos he] at hm
        injection hm with hmeq
        subst hmeq
        refine ⟨by omega, hmlen, ?_⟩
        rw [List.getElem?_eq_getElem hmlen]
        rw [List.getD_eq_getElem arr 0 hmlen] at he
        exact congrArg some he
      · rw [if_neg he] at hm
        by_cases hlt : arr.getD ((l + r).tdiv 2).toNat 0 < val
        · rw [if_pos hlt] at hm
          exact ih ((l + r).tdiv 2 + 1) r (by omega) (by omega) hr m hm
        · rw [if_neg hlt] at hm
          exact ih l ((l + r).tdiv 2 - 1) (by omega) h0 (by omega) m hm
    · rw [dif_neg hlr] at hm
      exact absurd hm (by simp)

theorem delFind_found (arr : List Nat) (val : Nat) (hs : List.Sorted (· ≤ ·) arr) :
    ∀ n l r, (r + 1 - l).toNat ≤ n → 0 ≤ l → r < (arr.length : Int) →
      ∀ j : Nat, l ≤ (j : Int) → (j : Int) ≤ r → arr[j]? = some val →
        ∃ m : Int, delFind arr val l r = some m := by
  intro n
  induction n with
  | zero =>
    intro l r hn h0 hr j hjl hjr hjv
    omega
  | succ n ih =>
    intro l r hn h0 hr j hjl hjr hjv
    have hlr : l ≤ r := by omega
    have hjlen : j < arr.length := by omega
    have hjval : arr.get ⟨j, hjlen⟩ = val := by
      rw [List.getElem?_eq_getElem hjlen] at hjv
      exact Option.some.inj hjv
    rw [delFind]
    rw [dif_pos hlr]
    have hml := le_tdiv_two l r hlr
    have hmr := tdiv_two_le l r hlr
    have hmlen : ((l + r).tdiv 2).toNat < arr.length := by omega
    by_cases he : arr.getD ((l + r).tdiv 2).toNat 0 = val
    · rw [if_pos he]
      exact ⟨_, rfl⟩
    · rw [if_neg he]
      rw [List.getD_eq_getElem arr 0 hmlen] at he
      by_cases hlt : arr.getD ((l + r).tdiv 2).toNat 0 < val
      · rw [if_pos hlt]
        rw [List.getD_eq_getElem arr 0 hmlen] at hlt
        have hjgt : ((l + r).tdiv 2).toNat < j := by
          by_contra hle
          push_neg at hle
          have := sorted_get_le hs ⟨j, hjlen⟩ ⟨((l + r).tdiv 2).toNat, hmlen⟩ hle
          rw [hjval] at this
          simp only [List.get_eq_getElem] at this hlt
          omega
        exact ih ((l + r).tdiv 2 + 1) r (by omega) (by omega) hr j (by omega) hjr hjv
      · rw [if_neg hlt]
        rw [List.getD_eq_getElem arr 0 hmlen] at hlt
        have hjlt : j < ((l + r).tdiv 2).toNat := by
          by_contra hle
          push_neg at hle
          have := sorted_get_le hs ⟨((l + r).tdiv 2).toNat, hmlen⟩ ⟨j, hjlen⟩ hle
          rw [hjval] at this
          simp only [List.get_eq_getElem] at this hlt he
          omega
        exact ih l ((l + r).tdiv 2 - 1) (by omega) h0 (by omega) j hjl (by omega) hjv

theorem perm_cons_eraseIdx {α : Type} (arr : List α) :
    ∀ i (h : i < arr.length), List.Perm arr (arr.get ⟨i, h⟩ :: arr.eraseIdx i) := by
  induction arr with
  | nil => intro i h; simp at h
  | cons a t ih =>
    intro i h
    cases i with
    | zero => simp [List.eraseIdx]
    | succ i =>
      simp only [List.length_cons, Nat.succ_lt_succ_iff] at h
      have hstep := ih i h
      have h1 : List.Perm (a :: t) (a :: (t.get ⟨i, h⟩ :: t.eraseIdx i)) :=
        List.Perm.cons a hstep
      have h2 : List.Perm (a :: (t.get ⟨i, h⟩ :: t.eraseIdx i))
          (t.get ⟨i, h⟩ :: (a :: t.eraseIdx i)) := List.Perm.swap _ _ _
      have h3 := h1.trans h2
      simpa [List.eraseIdx] using h3

theorem eraseIdx_eq_erase_of_sorted {arr : List Nat} (hs : List.Sorted (· ≤ ·) arr)
    {i : Nat} (h : i < arr.length) {v : Nat} (hv : arr.get ⟨i, h⟩ = v) :
    arr.eraseIdx i = arr.erase v := by
  have hmem : v ∈ arr := by
    rw [← hv]
    simp only [List.get_eq_getElem]
    exact List.getElem_mem h
  apply List.eq_of_perm_of_sorted (r := (· ≤ ·))
  · have h1 := perm_cons_eraseIdx arr i h
    rw [hv] at h1
    have h2 := List.perm_cons_erase hmem
    exact ((h1.symm.trans h2).cons_inv)
  · exact hs.sublist (arr.eraseIdx_sublist i)
  · exact hs.sublist (List.erase_sublist v arr)

theorem delHashIndex_eq_erase {arr : List Nat} (hs : List.Sorted (· ≤ ·) arr)
    (val : Nat) : delHashIndex arr val = arr.erase val := by
  by_cases hmem : val ∈ arr
  · obtain ⟨j, hj, hjv⟩ := List.mem_iff_getElem.mp hmem
    obtain ⟨m, hm⟩ :=
      delFind_found arr val hs ((arr.length : Int) - 1 + 1 - 0).toNat 0
        ((arr.length : Int) - 1) le_rfl le_rfl (by omega) j (by omega) (by omega)
        (by rw [List.getElem?_eq_getElem hj]; exact congrArg some hjv)
    obtain ⟨hm0, hmlen, hmval⟩ :=
      delFind_sound arr val _ 0 ((arr.length : Int) - 1) le_rfl le_rfl (by omega) m hm
    rw [delHashIndex, hm]
    refine eraseIdx_eq_erase_of_sorted hs hmlen ?_
    rw [List.getElem?_eq_getElem hmlen] at hmval
    exact Option.some.inj hmval
  · rw [delHashIndex]
    cases hd : delFind arr val 0 ((arr.length : Int) - 1) with
    | none => rw [List.erase_of_not_mem hmem]
    | some m =>
      obtain ⟨hm0, hmlen, hmval⟩ :=
        delFind_sound arr val ((arr.length : Int) - 1 + 1 - 0).toNat 0
          ((arr.length : Int) - 1) le_rfl le_rfl (by omega) m hd
      rw [List.getElem?_eq_getElem hmlen] at hmval
      exact absurd (Option.some.inj hmval ▸ List.getElem_mem hmlen) hmem

/-! ### `sort.Search` / `searchKey` / `GetKey` characterization -/

theorem lookupA_mem {α β : Type} [DecidableEq α] {l : List (α × β)} {k : α} {v : β}
    (h : lookupA l k = some v) : (k, v) ∈ l := by
  induction l with
  | nil => simp [lookupA] at h
  | cons p t ih =>
    obtain ⟨k', v'⟩ := p
    by_cases hk : k' = k
    · subst hk
      simp [lookupA] at h
      simp [h]
    · simp only [lookupA, if_neg hk] at h
      exact List.mem_cons_of_mem _ (ih h)

theorem sortSearch_le (n : Nat) (f : Nat → Bool) : sortSearch n f ≤ n := by
  have h : List.findIdx f (List.range n) ≤ (List.range n).length :=
    List.findIdx_le_length f
  simpa [sortSearch] using h

theorem sortSearch_min (n : Nat) (f : Nat → Bool) {j : Nat} (hj : j < sortSearch n f) :
    f j = false := by
  have hj' : j < List.findIdx f (List.range n) := by simpa [sortSearch] using hj
  have h := List.not_of_lt_findIdx hj'
  have hjn : j < n := lt_of_lt_of_le hj (sortSearch_le n f)
  simpa [List.getElem_range] using h

theorem sortSearch_spec (n : Nat) (f : Nat → Bool) (h : sortSearch n f < n) :
    f (sortSearch n f) = true := by
  have hlen : List.findIdx f (List.range n) < (List.range n).length := by
    simpa [sortSearch] using h
  have hg := List.findIdx_getElem (w := hlen)
  simpa [sortSearch, List.getElem_range] using hg

theorem find?_eq_getElem?_findIdx {α : Type} (p : α → Bool) (l : List α) :
    l.find? p = l[l.findIdx p]? := by
  induction l with
  | nil => simp
  | cons a t ih =>
    by_cases h : p a
    · simp [List.find?, h, List.findIdx_cons]
    · simp only [List.find?, h, List.findIdx_cons, Bool.false_eq_true, if_false,
        cond_false]
      simpa using ih

theorem findIdx_le_sortSearch (ring : List Nat) (key : Nat) :
    ring.findIdx (fun v => key ≤ v) ≤
      sortSearch ring.length (fun i => key ≤ ring.getD i 0) := by
  by_contra hc
  push_neg at hc
  have hslt : sortSearch ring.length (fun i => key ≤ ring.getD i 0) < ring.length :=
    lt_of_lt_of_le hc (List.findIdx_le_length _)
  have hfs := sortSearch_spec ring.length (fun i => key ≤ ring.getD i 0) hslt
  simp only [decide_eq_true_eq] at hfs
  rw [List.getD_eq_getElem ring 0 hslt] at hfs
  have hns := List.not_of_lt_findIdx hc
  simp only [decide_eq_false_iff_not, not_le] at hns
  exact lt_irrefl _ (lt_of_lt_of_le hns hfs)

theorem sortSearch_le_findIdx (ring : List Nat) (key : Nat) :
    sortSearch ring.length (fun i => key ≤ ring.getD i 0) ≤
      ring.findIdx (fun v => key ≤ v) := by
  by_contra hc
  push_neg at hc
  have htlt : ring.findIdx (fun v => key ≤ v) < ring.length :=
    lt_of_lt_of_le hc (sortSearch_le _ _)
  have hft := List.findIdx_getElem (w := htlt)
  simp only [decide_eq_true_eq] at hft
  have hmin := sortSearch_min ring.length (fun i => key ≤ ring.getD i 0) hc
  simp only [decide_eq_false_iff_not, not_le] at hmin
  rw [List.getD_eq_getElem ring 0 htlt] at hmin
  exact lt_irrefl _ (lt_of_lt_of_le hmin hft)

/-- `sortSearch` over index predicates agrees with `findIdx` over the list. -/
theorem sortSearch_eq_findIdx (ring : List Nat) (key : Nat) :
    sortSearch ring.length (fun i => key ≤ ring.getD i 0) =
      ring.findIdx (fun v => key ≤ v) :=
  le_antisymm (sortSearch_le_findIdx ring key) (findIdx_le_sortSearch ring key)

/-- On a nonempty ring, `GetKey` computes exactly the spec's successor rule. -/
theorem GetKey_eq_spec (hashFunc : String → Nat) (c : Consistent) (key : String)
    (hne : c.sortedHostsHashSet ≠ []) :
    GetKey hashFunc c key = getKeySpec hashFunc c key := by
  have hlen : 0 < c.sortedHostsHashSet.length := List.length_pos.mpr hne
  rw [GetKey, getKeySpec, searchKey, sortSearch_eq_findIdx,
    find?_eq_getElem?_findIdx]
  set t := c.sortedHostsHashSet.findIdx (fun v => hashFunc key ≤ v) with ht
  have htle : t ≤ c.sortedHostsHashSet.length := List.findIdx_le_length _
  rcases lt_or_eq_of_le htle with htlt | hteq
  · rw [if_neg (by omega)]
    rw [List.getElem?_eq_getElem htlt]
  · rw [if_pos (by omega)]
    rw [hteq]
    have hnone : c.sortedHostsHashSet[c.sortedHostsHashSet.length]? = none := by
      simp
    rw [hnone]
    have hhead : c.sortedHostsHashSet.head? = c.sortedHostsHashSet[0]? := by
      cases c.sortedHostsHashSet with
      | nil => rfl
      | cons a l => simp
    rw [hhead]
    cases hx : c.sortedHostsHashSet[0]? with
    | none => rfl
    | some v => rfl

theorem wf_ring_ne_nil {c : Consistent} (hw : wf c) (hne : c.hostMap ≠ []) :
    c.sortedHostsHashSet ≠ [] := by
  obtain ⟨hsorted, hperm, hnodup, hknodup, howners, hcovered, hlen⟩ := hw
  obtain ⟨q, hq⟩ := List.exists_mem_of_ne_nil _ hne
  obtain ⟨p, hp, hpq⟩ := hcovered q hq
  intro hnil
  have hlen0 : c.replicaHostMap.length = 0 := by
    have := hperm.length_eq
    rw [hnil] at this
    simpa using this.symm
  rw [List.length_eq_zero] at hlen0
  rw [hlen0] at hp
  exact absurd hp (List.not_mem_nil p)

theorem wf_ring_nil {c : Consistent} (hw : wf c) (hempty : c.hostMap = []) :
    c.sortedHostsHashSet = [] := by
  obtain ⟨hsorted, hperm, hnodup, hknodup, howners, hcovered, hlen⟩ := hw
  by_contra hne
  obtain ⟨v, hv⟩ := List.exists_mem_of_ne_nil _ hne
  have hvk : v ∈ c.replicaHostMap.map Prod.fst := hperm.subset hv
  obtain ⟨p, hp, hpv⟩ := List.mem_map.mp hvk
  have hsome := howners p hp
  rw [hempty] at hsome
  simp [lookupA] at hsome

theorem searchKey_lt_length {c : Consistent} (key : Nat)
    (hne : c.sortedHostsHashSet ≠ []) :
    searchKey c key < c.sortedHostsHashSet.length := by
  have hlen : 0 < c.sortedHostsHashSet.length := List.length_pos.mpr hne
  simp only [searchKey]
  split
  · exact hlen
  · omega

theorem GetKey_some_of_wf (hashFunc : String → Nat) {c : Consistent} (key : String)
    (hw : wf c) (hne : c.hostMap ≠ []) :
    ∃ h, GetKey hashFunc c key = some h ∧ h ∈ c.hostMap.map Prod.fst := by
  have hring : c.sortedHostsHashSet ≠ [] := wf_ring_ne_nil hw hne
  have hsk := searchKey_lt_length (c := c) (hashFunc key) hring
  obtain ⟨hsorted, hperm, hnodup, hknodup, howners, hcovered, hlen⟩ := hw
  have hmem : c.sortedHostsHashSet[searchKey c (hashFunc key)] ∈
      c.replicaHostMap.map Prod.fst :=
    hperm.subset (List.getElem_mem hsk)
  have hsome : (lookupA c.replicaHostMap
      c.sortedHostsHashSet[searchKey c (hashFunc key)]).isSome :=
    lookupA_isSome.mpr hmem
  obtain ⟨h, hh⟩ := Option.isSome_iff_exists.mp hsome
  refine ⟨h, ?_, ?_⟩
  · rw [GetKey]
    rw [List.getElem?_eq_getElem hsk]
    simp [hh]
  · have hmem2 := lookupA_mem hh
    exact lookupA_isSome.mp (howners _ hmem2)

theorem GetKey_none_of_no_hosts (hashFunc : String → Nat) {c : Consistent}
    (key : String) (hw : wf c) (hempty : c.hostMap = []) :
    GetKey hashFunc c key = none := by
  have hring : c.sortedHostsHashSet = [] := wf_ring_nil hw hempty
  simp [GetKey, hring]

/-! ### Ring-length invariant machinery -/

theorem length_hostHashes (hashFunc : String → Nat) (replicaNum : Nat) (h : String) :
    (hostHashes hashFunc replicaNum h).length = replicaNum := by
  simp [hostHashes]

theorem RegisterHost_mem (hashFunc : String → Nat) (c : Consistent) (h : String)
    (hm : h ∈ c.hostMap.map Prod.fst) :
    RegisterHost hashFunc c h = (some .hostAlreadyExists, c) := by
  rw [RegisterHost, if_pos (by simp [lookupA_isSome, hm])]

theorem RegisterHost_not_mem (hashFunc : String → Nat) (c : Consistent) (h : String)
    (hfresh : h ∉ c.hostMap.map Prod.fst) :
    RegisterHost hashFunc c h =
      (none,
        { c with
          hostMap := c.hostMap ++ [(h, 0)]
          replicaHostMap := (hostHashes hashFunc c.replicaNum h).foldl
            (fun m v => insertA m v h) c.replicaHostMap
          sortedHostsHashSet := List.insertionSort (· ≤ ·)
            (c.sortedHostsHashSet ++ hostHashes hashFunc c.replicaNum h) }) := by
  rw [RegisterHost, if_neg (by simp [lookupA_isSome, hfresh])]
  rw [insertA_of_not_mem hfresh]

theorem UnregisterHost_not_mem (hashFunc : String → Nat) (c : Consistent) (h : String)
    (hfresh : h ∉ c.hostMap.map Prod.fst) :
    UnregisterHost hashFunc c h = (some .hostNotFound, c) := by
  rw [UnregisterHost, if_neg (by simp [lookupA_isSome, hfresh])]

theorem UnregisterHost_mem (hashFunc : String → Nat) (c : Consistent) (h : String)
    (hm : h ∈ c.hostMap.map Prod.fst) :
    UnregisterHost hashFunc c h =
      (none,
        (hostHashes hashFunc c.replicaNum h).foldl
          (fun acc v =>
            { acc with
              replicaHostMap := eraseA acc.replicaHostMap v
              sortedHostsHashSet := delHashIndex acc.sortedHostsHashSet v })
          { c with hostMap := eraseA c.hostMap h }) := by
  rw [UnregisterHost, if_pos (by simp [lookupA_isSome, hm])]

theorem foldl_del_decompose (hs : List Nat) (c : Consistent) :
    hs.foldl
      (fun acc v =>
        { acc with
          replicaHostMap := eraseA acc.replicaHostMap v
          sortedHostsHashSet := delHashIndex acc.sortedHostsHashSet v }) c =
      { c with
        replicaHostMap := hs.foldl eraseA c.replicaHostMap
        sortedHostsHashSet := hs.foldl delHashIndex c.sortedHostsHashSet } := by
  induction hs generalizing c with
  | nil => rfl
  | cons a t ih =>
    rw [List.foldl_cons, List.foldl_cons, List.foldl_cons, ih]

theorem foldl_delHashIndex (hs : List Nat) : ∀ ring : List Nat,
    List.Sorted (· ≤ ·) ring →
      List.Sorted (· ≤ ·) (hs.foldl delHashIndex ring) ∧
      ((hs.foldl delHashIndex ring : List Nat) : Multiset Nat) =
        (ring : Multiset Nat) - (hs : Multiset Nat) := by
  induction hs with
  | nil =>
    intro ring hr
    simpa using hr
  | cons a t ih =>
    intro ring hr
    rw [List.foldl_cons, delHashIndex_eq_erase hr a]
    obtain ⟨hs1, hs2⟩ := ih (ring.erase a) (hr.sublist (List.erase_sublist a ring))
    refine ⟨hs1, ?_⟩
    rw [hs2, ← Multiset.coe_erase, ← Multiset.sub_singleton]
    rw [← Multiset.cons_coe, ← Multiset.singleton_add]
    rw [tsub_add_eq_tsub_tsub]

theorem ringInv_new (hashFunc : String → Nat) (replicaNum : Int) :
    ringInv hashFunc (NewConsistent replicaNum) := by
  refine ⟨by simp [NewConsistent], by simp [NewConsistent], by simp [NewConsistent]⟩

theorem ringInv_register (hashFunc : String → Nat) {c : Consistent} (h : String)
    (hinv : ringInv hashFunc c) : ringInv hashFunc (RegisterHost hashFunc c h).2 := by
  obtain ⟨hsorted, hperm, hnodup⟩ := hinv
  by_cases hm : h ∈ c.hostMap.map Prod.fst
  · rw [RegisterHost_mem hashFunc c h hm]
    exact ⟨hsorted, hperm, hnodup⟩
  · rw [RegisterHost_not_mem hashFunc c h hm]
    refine ⟨List.sorted_insertionSort _ _, ?_, ?_⟩
    · have h1 := List.perm_insertionSort (· ≤ ·)
        (c.sortedHostsHashSet ++ hostHashes hashFunc c.replicaNum h)
      have h2 : List.Perm
          (c.sortedHostsHashSet ++ hostHashes hashFunc c.replicaNum h)
          ((c.hostMap.map Prod.fst).flatMap (hostHashes hashFunc c.replicaNum) ++
            hostHashes hashFunc c.replicaNum h) :=
        hperm.append_right _
      have h3 :
          ((c.hostMap ++ [(h, 0)]).map Prod.fst).flatMap
              (hostHashes hashFunc c.replicaNum) =
            (c.hostMap.map Prod.fst).flatMap (hostHashes hashFunc c.replicaNum) ++
              hostHashes hashFunc c.replicaNum h := by
        simp
      rw [h3]
      exact h1.trans h2
    · have hn : ((c.hostMap ++ [(h, 0)]).map Prod.fst) =
          c.hostMap.map Prod.fst ++ [h] := by simp
      rw [hn]
      simp [List.nodup_append, hnodup, hm]

theorem ringInv_unregister (hashFunc : String → Nat) {c : Consistent} (h : String)
    (hinv : ringInv hashFunc c) : ringInv hashFunc (UnregisterHost hashFunc c h).2 := by
  obtain ⟨hsorted, hperm, hnodup⟩ := hinv
  by_cases hm : h ∈ c.hostMap.map Prod.fst
  · rw [UnregisterHost_mem hashFunc c h hm, foldl_del_decompose]
    obtain ⟨hs1, hs2⟩ :=
      foldl_delHashIndex (hostHashes hashFunc c.replicaNum h) c.sortedHostsHashSet
        hsorted
    refine ⟨hs1, ?_, ?_⟩
    · rw [← Multiset.coe_eq_coe, hs2, keys_eraseA]
      have hkperm : List.Perm (c.hostMap.map Prod.fst)
          (h :: (c.hostMap.map Prod.fst).erase h) := List.perm_cons_erase hm
      have hfm := hkperm.flatMap_right (hostHashes hashFunc c.replicaNum)
      have hco : ((c.sortedHostsHashSet : List Nat) : Multiset Nat) =
          (((c.hostMap.map Prod.fst).flatMap (hostHashes hashFunc c.replicaNum) :
            List Nat) : Multiset Nat) := Multiset.coe_eq_coe.mpr hperm
      rw [hco, Multiset.coe_eq_coe.mpr hfm]
      rw [List.flatMap_cons]
      rw [← Multiset.coe_add]
      rw [add_tsub_cancel_left]
    · rw [keys_eraseA]
      exact hnodup.erase h
  · rw [UnregisterHost_not_mem hashFunc c h hm]
    exact ⟨hsorted, hperm, hnodup⟩

theorem ringInv_applyRegOps (hashFunc : String → Nat) (ops : List RegOp)
    {c : Consistent} (hinv : ringInv hashFunc c) :
    ringInv hashFunc (applyRegOps hashFunc ops c) := by
  induction ops generalizing c with
  | nil => exact hinv
  | cons op t ih =>
    rw [applyRegOps, List.foldl_cons]
    cases op with
    | reg h => exact ih (ringInv_register hashFunc h hinv)
    | unreg h => exact ih (ringInv_unregister hashFunc h hinv)

theorem ringInv_length (hashFunc : String → Nat) {c : Consistent}
    (hinv : ringInv hashFunc c) :
    c.sortedHostsHashSet.length = c.hostMap.length * c.replicaNum := by
  have hlen := hinv.2.1.length_eq
  rw [List.length_flatMap] at hlen
  have hmapc : (c.hostMap.map Prod.fst).map
      (List.length ∘ hostHashes hashFunc c.replicaNum) =
      (c.hostMap.map Prod.fst).map (fun _ => c.replicaNum) := by
    apply List.map_congr_left
    intro a _
    simp [length_hostHashes]
  rw [hmapc] at hlen
  rw [List.map_const', List.sum_replicate, smul_eq_mul] at hlen
  simpa using hlen

/-! ### Frame properties of `GetKeyLeast` -/

theorem clampState_hostMap (c : Consistent) : (clampState c).hostMap = c.hostMap := by
  rw [clampState]
  split <;> rfl

theorem clampState_replicaHostMap (c : Consistent) :
    (clampState c).replicaHostMap = c.replicaHostMap := by
  rw [clampState]
  split <;> rfl

theorem clampState_ring (c : Consistent) :
    (clampState c).sortedHostsHashSet = c.sortedHostsHashSet := by
  rw [clampState]
  split <;> rfl

theorem clampState_replicaNum (c : Consistent) :
    (clampState c).replicaNum = c.replicaNum := by
  rw [clampState]
  split <;> rfl

theorem clampState_totalLoad (c : Consistent) :
    (clampState c).totalLoad = max c.totalLoad 0 := by
  rw [clampState]
  split
  · rename_i h
    show (0 : Int) = max c.totalLoad 0
    omega
  · rename_i h
    show c.totalLoad = max c.totalLoad 0
    omega

theorem clampState_idem (c : Consistent) : clampState (clampState c) = clampState c := by
  rw [clampState, clampState]
  split
  · rw [if_neg (by simp)]
  · rfl

theorem clampState_of_nonneg {c : Consistent} (h : 0 ≤ c.totalLoad) :
    clampState c = c := by
  rw [clampState, if_neg (by omega)]

theorem checkLoadCapacity_state {c : Consistent} {host : String}
    {x : Except Err Bool} {c' : Consistent}
    (h : checkLoadCapacity c host = some (x, c')) : c' = clampState c := by
  rw [checkLoadCapacity] at h
  split at h
  · exact absurd h (by simp)
  · split at h
    · injection h with h1
      exact (congrArg Prod.snd h1).symm
    · injection h with h1
      exact (congrArg Prod.snd h1).symm

theorem checkLoadCapacity_clamp (c : Consistent) (host : String) :
    checkLoadCapacity (clampState c) host = checkLoadCapacity c host := by
  rw [checkLoadCapacity, checkLoadCapacity, clampState_idem]

theorem getKeyLeastLoop_state {c : Consistent} (hc : clampState c = c) :
    ∀ fuel i r c', getKeyLeastLoop c i fuel = some (r, c') → c' = c := by
  intro fuel
  induction fuel with
  | zero =>
    intro i r c' h
    exact absurd h (by simp [getKeyLeastLoop])
  | succ n ih =>
    intro i r c' h
    rw [getKeyLeastLoop] at h
    split at h
    · exact absurd h (by simp)
    · split at h
      · exact absurd h (by simp)
      · rename_i heq
        injection h with h1
        exact ((congrArg Prod.snd h1).symm.trans
          ((checkLoadCapacity_state heq).trans hc))
      · rename_i heq
        injection h with h1
        exact ((congrArg Prod.snd h1).symm.trans
          ((checkLoadCapacity_state heq).trans hc))
      · rename_i heq
        rw [(checkLoadCapacity_state heq).trans hc] at h
        exact ih _ r c' h

theorem getKeyLeastLoop_clamp (c : Consistent) (i fuel : Nat) :
    getKeyLeastLoop c i fuel = getKeyLeastLoop (clampState c) i fuel := by
  cases fuel with
  | zero => rfl
  | succ n =>
    rw [getKeyLeastLoop, getKeyLeastLoop]
    simp only [clampState_ring, clampState_replicaHostMap, checkLoadCapacity_clamp]

/-- Any returning run of `GetKeyLeast` leaves the state equal to the input or
to its clamped form. -/
theorem GetKeyLeast_state {hashFunc : String → Nat} {c : Consistent} {key : String}
    {fuel : Nat} {r : Except Err String} {c' : Consistent}
    (h : GetKeyLeast hashFunc c key fuel = some (r, c')) :
    c' = c ∨ c' = clampState c := by
  rw [GetKeyLeast] at h
  split at h
  · injection h with h1
    exact Or.inl (congrArg Prod.snd h1).symm
  · rw [getKeyLeastLoop_clamp] at h
    exact Or.inr (getKeyLeastLoop_state (clampState_idem c) _ _ r c' h)

/-! ### Termination of the bounded-load scan -/

theorem exists_min_host {hostMap : List (String × Int)} (hne : hostMap ≠ []) :
    ∃ q ∈ hostMap, ∀ p ∈ hostMap, q.2 ≤ p.2 := by
  induction hostMap with
  | nil => exact absurd rfl hne
  | cons a t ih =>
    cases t with
    | nil =>
      refine ⟨a, by simp, ?_⟩
      intro p hp
      rw [List.mem_singleton.mp hp]
    | cons b t' =>
      obtain ⟨q, hq, hmin⟩ := ih (by simp)
      by_cases hle : a.2 ≤ q.2
      · refine ⟨a, by simp, ?_⟩
        intro p hp
        rcases List.mem_cons.mp hp with rfl | hp'
        · exact le_refl _
        · exact hle.trans (hmin p hp')
      · refine ⟨q, List.mem_cons_of_mem a hq, ?_⟩
        intro p hp
        rcases List.mem_cons.mp hp with rfl | hp'
        · exact le_of_not_le hle
        · exact hmin p hp'

theorem min_mul_le_sum {hostMap : List (String × Int)} {m : Int}
    (hmin : ∀ p ∈ hostMap, m ≤ p.2) :
    (hostMap.length : Int) * m ≤ sumLoads hostMap := by
  have h := List.card_nsmul_le_sum (hostMap.map Prod.snd) m ?_
  · rw [List.length_map] at h
    rw [nsmul_eq_mul] at h
    exact h
  · intro x hx
    obtain ⟨p, hp, rfl⟩ := List.mem_map.mp hx
    exact hmin p hp

theorem capacity_ok {T n lb : Int} (hT : 0 ≤ T) (hn : 0 < n) (hlb : n * lb ≤ T) :
    lb + 1 ≤ goCeil125 (if (T + 1).tdiv n = 0 then 1 else (T + 1).tdiv n) := by
  rw [Int.tdiv_eq_ediv (by omega) (by omega)]
  have hlba : lb ≤ (T + 1) / n := by
    rw [Int.le_ediv_iff_mul_le hn]
    calc lb * n = n * lb := mul_comm lb n
      _ ≤ T := hlb
      _ ≤ T + 1 := by omega
  have ha0 : 0 ≤ (T + 1) / n := Int.ediv_nonneg (by omega) (by omega)
  by_cases haz : (T + 1) / n = 0
  · rw [if_pos haz]
    have h2 : goCeil125 1 = 2 := by norm_num [goCeil125]
    omega
  · rw [if_neg haz]
    have hga : (T + 1) / n + 1 ≤ goCeil125 ((T + 1) / n) := by
      rw [goCeil125, Int.le_ediv_iff_mul_le (by norm_num : (0 : Int) < 4)]
      omega
    omega

theorem checkLoadCapacity_eq {c : Consistent} (hcl : clampState c = c)
    (hn : ¬c.hostMap.length = 0) {host : String} {lb : Int}
    (hlook : lookupA c.hostMap host = some lb) :
    checkLoadCapacity c host = some (.ok (decide (lb + 1 ≤ goCeil125
      (if (c.totalLoad + 1).tdiv c.hostMap.length = 0 then 1
        else (c.totalLoad + 1).tdiv c.hostMap.length))), c) := by
  rw [checkLoadCapacity, hcl, if_neg hn, hlook]

/-- Well-formedness only constrains load-free fields, so clamping keeps it. -/
theorem wf_clamp {c : Consistent} (hw : wf c) : wf (clampState c) := by
  obtain ⟨h1, h2, h3, h4, h5, h6, h7⟩ := hw
  refine ⟨?_, ?_, ?_, ?_, ?_, ?_, ?_⟩ <;>
    simp only [clampState_ring, clampState_replicaHostMap, clampState_hostMap,
      clampState_replicaNum] <;> assumption

/-- On a clamped well-formed state every scan position yields a clean
(non-panicking, non-erroring) capacity verdict. -/
theorem checkLoadCapacity_at {c : Consistent} (hw : wf c) (hcl : clampState c = c)
    (hne : c.hostMap ≠ []) {j : Nat} (hj : j < c.sortedHostsHashSet.length) :
    ∃ b : Bool,
      checkLoadCapacity c
        ((lookupA c.replicaHostMap (c.sortedHostsHashSet.getD j 0)).getD "") =
        some (.ok b, c) := by
  obtain ⟨hsorted, hperm, hnodup, hknodup, howners, hcovered, hlen⟩ := hw
  have hmem : c.sortedHostsHashSet.getD j 0 ∈ c.replicaHostMap.map Prod.fst := by
    rw [List.getD_eq_getElem _ 0 hj]
    exact hperm.subset (List.getElem_mem hj)
  obtain ⟨h, hh⟩ := Option.isSome_iff_exists.mp (lookupA_isSome.mpr hmem)
  have hhost := howners _ (lookupA_mem hh)
  obtain ⟨lb, hlb⟩ := Option.isSome_iff_exists.mp hhost
  have hn : ¬c.hostMap.length = 0 := by
    intro h0
    exact hne (List.length_eq_zero.mp h0)
  refine ⟨decide (lb + 1 ≤ goCeil125
    (if (c.totalLoad + 1).tdiv c.hostMap.length = 0 then 1
      else (c.totalLoad + 1).tdiv c.hostMap.length)), ?_⟩
  rw [hh]
  exact checkLoadCapacity_eq hcl hn hlb

/-- On a clamped well-formed state whose per-host loads sum to at most the
aggregate, some ring position passes the capacity check. -/
theorem exists_qualifying {c : Consistent} (hw : wf c) (hcl : clampState c = c)
    (hne : c.hostMap ≠ []) (hload : sumLoads c.hostMap ≤ c.totalLoad) :
    ∃ p < c.sortedHostsHashSet.length,
      checkLoadCapacity c
        ((lookupA c.replicaHostMap (c.sortedHostsHashSet.getD p 0)).getD "") =
        some (.ok true, c) := by
  obtain ⟨q, hq, hmin⟩ := exists_min_host hne
  obtain ⟨hsorted, hperm, hnodup, hknodup, howners, hcovered, hlen⟩ := hw
  obtain ⟨pr, hpr, hprq⟩ := hcovered q hq
  have hvk : pr.1 ∈ c.replicaHostMap.map Prod.fst := List.mem_map_of_mem Prod.fst hpr
  have hvring : pr.1 ∈ c.sortedHostsHashSet := (hperm.mem_iff).mpr hvk
  obtain ⟨p, hp, hpv⟩ := List.mem_iff_getElem.mp hvring
  have hlookmap : lookupA c.replicaHostMap pr.1 = some q.1 := by
    have : (pr.1, q.1) ∈ c.replicaHostMap := by
      have : pr = (pr.1, pr.2) := rfl
      rw [← hprq]
      exact hpr
    exact lookupA_of_mem_nodup hknodup this
  have hlookhost : lookupA c.hostMap q.1 = some q.2 := by
    have : q = (q.1, q.2) := rfl
    exact lookupA_of_mem_nodup hnodup (by rw [← this]; exact hq)
  have hn : ¬c.hostMap.length = 0 := by
    intro h0
    exact hne (List.length_eq_zero.mp h0)
  have hT : 0 ≤ c.totalLoad := by
    by_contra hneg
    push_neg at hneg
    have := clampState_totalLoad c
    rw [hcl] at this
    omega
  have hnpos : 0 < (c.hostMap.length : Int) := by
    have : c.hostMap.length ≠ 0 := hn
    omega
  have hcap := capacity_ok hT hnpos (le_trans (min_mul_le_sum hmin) hload)
  refine ⟨p, hp, ?_⟩
  have hgd : c.sortedHostsHashSet.getD p 0 = pr.1 := by
    rw [List.getD_eq_getElem _ 0 hp, hpv]
  rw [hgd, hlookmap]
  simp only [Option.getD_some]
  rw [checkLoadCapacity_eq hcl hn hlookhost]
  rw [decide_eq_true hcap]

theorem getKeyLeastLoop_reaches {c : Consistent} (hcl : clampState c = c)
    (hmaplen : c.replicaHostMap.length = c.sortedHostsHashSet.length)
    (hok : ∀ j, j < c.sortedHostsHashSet.length → ∃ b : Bool,
      checkLoadCapacity c ((lookupA c.replicaHostMap
        (c.sortedHostsHashSet.getD j 0)).getD "") = some (.ok b, c)) :
    ∀ fuel i, i < c.sortedHostsHashSet.length →
      (∃ d, d < fuel ∧
        checkLoadCapacity c ((lookupA c.replicaHostMap
            (c.sortedHostsHashSet.getD
              ((i + d) % c.sortedHostsHashSet.length) 0)).getD "") =
          some (.ok true, c)) →
      ∃ h, getKeyLeastLoop c i fuel = some (.ok h, c) := by
  intro fuel
  induction fuel with
  | zero =>
    intro i hi hex
    obtain ⟨d, hd, _⟩ := hex
    omega
  | succ n ih =>
    intro i hi hex
    obtain ⟨d, hd, hqual⟩ := hex
    have hgd : c.sortedHostsHashSet.getD i 0 = c.sortedHostsHashSet[i] :=
      List.getD_eq_getElem _ 0 hi
    obtain ⟨b, hb⟩ := hok i hi
    rw [hgd] at hb
    rw [getKeyLeastLoop]
    split
    · rename_i heq
      rw [List.getElem?_eq_getElem hi] at heq
      exact absurd heq (by simp)
    · rename_i hv heq
      rw [List.getElem?_eq_getElem hi] at heq
      have hveq : hv = c.sortedHostsHashSet[i] := (Option.some.inj heq).symm
      subst hveq
      split
      · rename_i heq2
        rw [heq2] at hb
        exact absurd hb (by simp)
      · rename_i e c2 heq2
        have hx := heq2.symm.trans hb
        exact absurd hx (by simp)
      · rename_i c2 heq2
        have hx := heq2.symm.trans hb
        have hc2 : c2 = c := by
          have := congrArg Prod.snd (Option.some.inj hx)
          simpa using this
        exact ⟨_, by rw [hc2]⟩
      · rename_i c2 heq2
        have hx := heq2.symm.trans hb
        have hc2 : c2 = c := by
          have := congrArg Prod.snd (Option.some.inj hx)
          simpa using this
        rw [hc2] at heq2 ⊢
        have hd0 : d ≠ 0 := by
          intro h0
          subst h0
          rw [Nat.add_zero, Nat.mod_eq_of_lt hi, hgd, heq2] at hqual
          exact absurd (Option.some.inj hqual) (by simp)
        have hi2eq : (if c.replicaHostMap.length ≤ i + 1 then 0 else i + 1) =
            (i + 1) % c.sortedHostsHashSet.length := by
          rw [hmaplen]
          by_cases hcase : c.sortedHostsHashSet.length ≤ i + 1
          · rw [if_pos hcase]
            have hieq : i + 1 = c.sortedHostsHashSet.length := by omega
            rw [hieq, Nat.mod_self]
          · rw [if_neg hcase]
            rw [Nat.mod_eq_of_lt (by omega)]
        rw [hi2eq]
        apply ih
        · exact Nat.mod_lt _ (by omega)
        · refine ⟨d - 1, by omega, ?_⟩
          have harith : ((i + 1) % c.sortedHostsHashSet.length + (d - 1)) %
              c.sortedHostsHashSet.length = (i + d) % c.sortedHostsHashSet.length := by
            rw [Nat.mod_add_mod]
            congr 1
            omega
          rw [harith]
          exact hqual

theorem searchKey_clamp (c : Consistent) (key : Nat) :
    searchKey (clampState c) key = searchKey c key := by
  rw [searchKey, searchKey, clampState_ring]

/-- Main bounded-termination lemma: on a well-formed state whose per-host
loads sum to at most the aggregate, `GetKeyLeast` succeeds within
`hostCount × replicaNum` scan steps, returning a host and the (possibly
clamped) state. -/
theorem GetKeyLeast_bounded (hashFunc : String → Nat) {c : Consistent} (key : String)
    (hw : wf c) (hne : c.hostMap ≠ [])
    (hload : sumLoads c.hostMap ≤ c.totalLoad) :
    ∃ h, GetKeyLeast hashFunc c key (c.hostMap.length * c.replicaNum) =
      some (.ok h, clampState c) := by
  have hring : c.sortedHostsHashSet ≠ [] := wf_ring_ne_nil hw hne
  have hlen0 : 0 < c.sortedHostsHashSet.length := List.length_pos.mpr hring
  have hmaplen : c.replicaHostMap.length = c.sortedHostsHashSet.length := by
    have := hw.2.1.length_eq
    rw [List.length_map] at this
    omega
  have hguard : ¬c.replicaHostMap.length = 0 := by omega
  have hw1 : wf (clampState c) := wf_clamp hw
  have hcl1 : clampState (clampState c) = clampState c := clampState_idem c
  have hne1 : (clampState c).hostMap ≠ [] := by
    rw [clampState_hostMap]
    exact hne
  have hload1 : sumLoads (clampState c).hostMap ≤ (clampState c).totalLoad := by
    rw [clampState_hostMap, clampState_totalLoad]
    omega
  obtain ⟨p, hp, hqual⟩ := exists_qualifying hw1 hcl1 hne1 hload1
  rw [clampState_ring] at hp
  rw [clampState_ring] at hqual
  have hok : ∀ j, j < (clampState c).sortedHostsHashSet.length → ∃ b : Bool,
      checkLoadCapacity (clampState c) ((lookupA (clampState c).replicaHostMap
        ((clampState c).sortedHostsHashSet.getD j 0)).getD "") =
        some (.ok b, clampState c) := by
    intro j hj
    exact checkLoadCapacity_at hw1 hcl1 hne1 hj
  have hsk : searchKey c (hashFunc key) < c.sortedHostsHashSet.length :=
    searchKey_lt_length _ hring
  have hfuel : c.hostMap.length * c.replicaNum = c.sortedHostsHashSet.length :=
    hw.2.2.2.2.2.2.symm
  have hreach := getKeyLeastLoop_reaches hcl1
    (by rw [clampState_ring, clampState_replicaHostMap]; exact hmaplen) hok
    (c.hostMap.length * c.replicaNum) (searchKey c (hashFunc key))
    (by rw [clampState_ring]; exact hsk) ?_
  · obtain ⟨h, hh⟩ := hreach
    refine ⟨h, ?_⟩
    rw [GetKeyLeast, if_neg hguard, getKeyLeastLoop_clamp]
    exact hh
  · refine ⟨(p + c.sortedHostsHashSet.length - searchKey c (hashFunc key)) %
      c.sortedHostsHashSet.length, ?_, ?_⟩
    · have := Nat.mod_lt (p + c.sortedHostsHashSet.length -
        searchKey c (hashFunc key)) (y := c.sortedHostsHashSet.length) (by omega)
      omega
    · rw [clampState_ring]
      have harith : (searchKey c (hashFunc key) +
          (p + c.sortedHostsHashSet.length - searchKey c (hashFunc key)) %
            c.sortedHostsHashSet.length) % c.sortedHostsHashSet.length = p := by
        rw [Nat.add_mod_mod]
        rw [show searchKey c (hashFunc key) +
            (p + c.sortedHostsHashSet.length - searchKey c (hashFunc key)) =
            p + c.sortedHostsHashSet.length by omega]
        rw [Nat.add_mod_right]
        exact Nat.mod_eq_of_lt hp
      rw [harith]
      exact hqual

/-! ### Load bookkeeping equations -/

theorem Inc_some {c : Consistent} {h : String} {v : Int}
    (hl : lookupA c.hostMap h = some v) :
    Inc c h = some
      { c with hostMap := insertA c.hostMap h (v + 1), totalLoad := c.totalLoad + 1 } := by
  rw [Inc, hl]

theorem Inc_none {c : Consistent} {h : String} (hl : lookupA c.hostMap h = none) :
    Inc c h = none := by
  rw [Inc, hl]

theorem Done_some {c : Consistent} {h : String} {v : Int}
    (hl : lookupA c.hostMap h = some v) :
    Done c h =
      { c with hostMap := insertA c.hostMap h (v - 1), totalLoad := c.totalLoad - 1 } := by
  rw [Done, hl]

theorem Done_none {c : Consistent} {h : String} (hl : lookupA c.hostMap h = none) :
    Done c h = c := by
  rw [Done, hl]

theorem UpdateLoad_some {c : Consistent} {h : String} {old : Int}
    (hl : lookupA c.hostMap h = some old) (load : Int) :
    UpdateLoad c h load =
      { c with
        totalLoad := c.totalLoad - old + load
        hostMap := insertA c.hostMap h load } := by
  rw [UpdateLoad, hl]

theorem UpdateLoad_none {c : Consistent} {h : String}
    (hl : lookupA c.hostMap h = none) (load : Int) : UpdateLoad c h load = c := by
  rw [UpdateLoad, hl]

theorem sumLoads_append_zero (l : List (String × Int)) (h : String) :
    sumLoads (l ++ [(h, 0)]) = sumLoads l := by
  simp [sumLoads]

/-! ### Register-then-unregister roundtrip -/

theorem foldl_insertA_fresh (hname : String) :
    ∀ (hs : List Nat) (m : List (Nat × String)),
      (∀ v ∈ hs, v ∉ m.map Prod.fst) → hs.Nodup →
      hs.foldl (fun acc v => insertA acc v hname) m =
        m ++ hs.map (fun v => (v, hname)) := by
  intro hs
  induction hs with
  | nil => intro m _ _; simp
  | cons a t ih =>
    intro m hfresh hnd
    rw [List.foldl_cons]
    rw [insertA_of_not_mem (hfresh a (by simp))]
    rw [ih (m ++ [(a, hname)]) ?_ (List.Nodup.of_cons hnd)]
    · simp
    · intro v hv
      simp only [List.map_append, List.mem_append] at *
      push_neg
      refine ⟨hfresh v (by simp [hv]), ?_⟩
      intro hva
      simp only [List.map_cons, List.map_nil, List.mem_singleton] at hva
      rw [hva] at hv
      exact (List.nodup_cons.mp hnd).1 hv

theorem foldl_eraseA_fresh (hname : String) :
    ∀ (hs : List Nat) (m : List (Nat × String)),
      (∀ v ∈ hs, v ∉ m.map Prod.fst) → hs.Nodup →
      hs.foldl eraseA (m ++ hs.map (fun v => (v, hname))) = m := by
  intro hs
  induction hs with
  | nil => intro m _ _; simp
  | cons a t ih =>
    intro m hfresh hnd
    rw [List.map_cons, List.foldl_cons]
    rw [show m ++ (a, hname) :: t.map (fun v => (v, hname)) =
      m ++ (a, hname) :: t.map (fun v => (v, hname)) from rfl]
    rw [eraseA_append_of_not_mem (hfresh a (by simp)) hname]
    exact ih m (fun v hv => hfresh v (by simp [hv])) (List.Nodup.of_cons hnd)

/-- Registering a fresh host with collision-free replica hashes and then
unregistering it restores ring, hash→host mapping and registry exactly. -/
theorem roundtrip_fields (hashFunc : String → Nat) {c : Consistent} (h : String)
    (hsorted : List.Sorted (· ≤ ·) c.sortedHostsHashSet)
    (hhost : h ∉ c.hostMap.map Prod.fst)
    (hnodup : (hostHashes hashFunc c.replicaNum h).Nodup)
    (hfreshring : ∀ v ∈ hostHashes hashFunc c.replicaNum h,
      v ∉ c.sortedHostsHashSet)
    (hfreshmap : ∀ v ∈ hostHashes hashFunc c.replicaNum h,
      v ∉ c.replicaHostMap.map Prod.fst) :
    (UnregisterHost hashFunc (RegisterHost hashFunc c h).2 h).2.sortedHostsHashSet =
        c.sortedHostsHashSet ∧
      (UnregisterHost hashFunc (RegisterHost hashFunc c h).2 h).2.replicaHostMap =
        c.replicaHostMap ∧
      (UnregisterHost hashFunc (RegisterHost hashFunc c h).2 h).2.hostMap =
        c.hostMap := by
  rw [RegisterHost_not_mem hashFunc c h hhost]
  set c1 : Consistent :=
    { c with
      hostMap := c.hostMap ++ [(h, 0)]
      replicaHostMap := (hostHashes hashFunc c.replicaNum h).foldl
        (fun m v => insertA m v h) c.replicaHostMap
      sortedHostsHashSet := List.insertionSort (· ≤ ·)
        (c.sortedHostsHashSet ++ hostHashes hashFunc c.replicaNum h) } with hc1
  have hc1host : c1.hostMap = c.hostMap ++ [(h, 0)] := rfl
  have hc1rep : c1.replicaNum = c.replicaNum := rfl
  have hmem1 : h ∈ c1.hostMap.map Prod.fst := by
    rw [hc1host]
    simp
  rw [UnregisterHost_mem hashFunc c1 h hmem1, foldl_del_decompose]
  rw [hc1rep]
  have hhm : eraseA c1.hostMap h = c.hostMap := by
    rw [hc1host]
    have := eraseA_append_of_not_mem (t := ([] : List (String × Int))) hhost (0 : Int)
    simpa using this
  refine ⟨?_, ?_, ?_⟩
  · have hsorted1 : List.Sorted (· ≤ ·) c1.sortedHostsHashSet :=
      List.sorted_insertionSort _ _
    obtain ⟨hs1, hs2⟩ := foldl_delHashIndex (hostHashes hashFunc c.replicaNum h)
      c1.sortedHostsHashSet hsorted1
    have hms : ((c1.sortedHostsHashSet : List Nat) : Multiset Nat) =
        ((c.sortedHostsHashSet : List Nat) : Multiset Nat) +
          ((hostHashes hashFunc c.replicaNum h : List Nat) : Multiset Nat) := by
      have hperm := List.perm_insertionSort (· ≤ ·)
        (c.sortedHostsHashSet ++ hostHashes hashFunc c.replicaNum h)
      rw [show c1.sortedHostsHashSet = List.insertionSort (· ≤ ·)
        (c.sortedHostsHashSet ++ hostHashes hashFunc c.replicaNum h) from rfl]
      rw [Multiset.coe_eq_coe.mpr hperm, ← Multiset.coe_add]
    rw [hms, add_tsub_cancel_right] at hs2
    simp only []
    exact List.eq_of_perm_of_sorted (Multiset.coe_eq_coe.mp hs2) hs1 hsorted
  · simp only []
    rw [foldl_insertA_fresh h _ _ hfreshmap hnodup]
    exact foldl_eraseA_fresh h _ _ hfreshmap hnodup
  · simp only []
    exact hhm

/-! ### Per-operation field equations -/

theorem lookupA_insertA_self {α β : Type} [DecidableEq α] (l : List (α × β))
    (k : α) (v : β) : lookupA (insertA l k v) k = some v := by
  induction l with
  | nil => simp [insertA, lookupA]
  | cons p t ih =>
    obtain ⟨k', v'⟩ := p
    by_cases h : k' = k
    · subst h
      simp [insertA, lookupA]
    · simp [insertA, lookupA, h, ih]

theorem RegisterHost_totalLoad (hashFunc : String → Nat) (c : Consistent)
    (h : String) : (RegisterHost hashFunc c h).2.totalLoad = c.totalLoad := by
  by_cases hm : h ∈ c.hostMap.map Prod.fst
  · rw [RegisterHost_mem hashFunc c h hm]
  · rw [RegisterHost_not_mem hashFunc c h hm]

theorem UnregisterHost_hostMap (hashFunc : String → Nat) (c : Consistent)
    (h : String) (hm : h ∈ c.hostMap.map Prod.fst) :
    (UnregisterHost hashFunc c h).2.hostMap = eraseA c.hostMap h := by
  rw [UnregisterHost_mem hashFunc c h hm, foldl_del_decompose]

theorem UnregisterHost_totalLoad (hashFunc : String → Nat) (c : Consistent)
    (h : String) : (UnregisterHost hashFunc c h).2.totalLoad = c.totalLoad := by
  by_cases hm : h ∈ c.hostMap.map Prod.fst
  · rw [UnregisterHost_mem hashFunc c h hm, foldl_del_decompose]
  · rw [UnregisterHost_not_mem hashFunc c h hm]

theorem RegisterHost_success_lengths {hashFunc : String → Nat} {c : Consistent}
    {h : String} {c' : Consistent} (heq : RegisterHost hashFunc c h = (none, c')) :
    c'.sortedHostsHashSet.length = c.sortedHostsHashSet.length + c.replicaNum ∧
      c'.hostMap.length = c.hostMap.length + 1 := by
  by_cases hm : h ∈ c.hostMap.map Prod.fst
  · rw [RegisterHost_mem hashFunc c h hm] at heq
    exact absurd (congrArg Prod.fst heq) (by simp)
  · rw [RegisterHost_not_mem hashFunc c h hm] at heq
    injection heq with h1 h2
    rw [← h2]
    constructor
    · simp [List.length_insertionSort, length_hostHashes]
    · simp

theorem MaxLoad_spec {c : Consistent} (hne : ¬c.hostMap.length = 0) :
    MaxLoad c = some (goCeil125
        (if (if c.totalLoad = 0 then 1 else c.totalLoad).tdiv c.hostMap.length = 0
          then 1
          else (if c.totalLoad = 0 then 1 else c.totalLoad).tdiv c.hostMap.length),
      { c with totalLoad := if c.totalLoad = 0 then 1 else c.totalLoad }) := by
  by_cases h0 : c.totalLoad = 0
  · simp only [MaxLoad, h0, if_true, ite_true]
    rw [if_neg hne]
  · simp only [MaxLoad, h0, if_false, ite_false]
    rw [if_neg hne]

theorem MaxLoad_state {c : Consistent} {v : Int} {c' : Consistent}
    (heq : MaxLoad c = some (v, c')) (h0 : c.totalLoad ≠ 0) : c' = c := by
  have hne : ¬c.hostMap.length = 0 := by
    intro hz
    rw [MaxLoad] at heq
    rw [if_neg h0] at heq
    rw [if_pos hz] at heq
    exact absurd heq (by simp)
  rw [MaxLoad_spec hne] at heq
  have := congrArg Prod.snd (Option.some.inj heq)
  simp only [if_neg h0] at this
  exact this.symm

/-! ### Concrete states for witnesses and counterexamples -/

/-- Deterministic stub hash (the hash function is an injected capability). -/
def exHash : String → Nat := fun s => s.length

/-- Well-formed single-host state: host `"b"` with load 0, aggregate 0,
one replica (`exHash "b0" = 2`). -/
def exGood : Consistent :=
  { replicaNum := 1, totalLoad := 0, hostMap := [("b", 0)],
    replicaHostMap := [(2, "b")], sortedHostsHashSet := [2] }

/-- Well-formed single-host state whose host carries load 5 while the
aggregate is 0.  Reachable through the API from a fresh instance: five
unpaired `Done("b")` drive `"b"` to −5 and the aggregate to −5, a second
host absorbs five `Inc`, then unregistering `"b"`… (equivalently: register
`"x"`, `Done("x")` five times, register `"b"`, `Inc("b")` five times,
unregister `"x"` — leaving load("b") = 5, totalLoad = 0). -/
def exOver : Consistent :=
  { replicaNum := 1, totalLoad := 0, hostMap := [("b", 5)],
    replicaHostMap := [(2, "b")], sortedHostsHashSet := [2] }

/-- Well-formed single-host state with a negative aggregate (one unpaired
`Done("b")` from a fresh instance). -/
def exNeg : Consistent :=
  { replicaNum := 1, totalLoad := -1, hostMap := [("b", -1)],
    replicaHostMap := [(2, "b")], sortedHostsHashSet := [2] }

/-- The state after registering `"a"` on a fresh single-replica instance. -/
def exReg : Consistent := (RegisterHost exHash (NewConsistent 1) "a").2

/-! ### Claim theorems -/

/-- C1 (counterexample): the claim quantifies over *every* state with at
least one registered host, but on the API-reachable state `exOver`
(one host at load 5, aggregate 0) the capacity bound is
`ceil(((0+1)/1) × 1.25) = 2 < 5 + 1`, no host ever qualifies, and the scan
does not find a host within `hostCount × replicaNum` steps (indeed it loops
forever). -/
theorem C1_counterexample :
    GetKeyLeast exHash exOver "k" (exOver.hostMap.length * exOver.replicaNum) =
      none := rfl

/-- C1 (amended): on every well-formed state (sorted collision-free ring,
hosts owning their replicas, ring length law) whose per-host loads sum to at
most the aggregate — which holds whenever callers respect the documented
`Inc`/`Done` pairing contract — `GetKeyLeast` finds a host whose projected
load fits the bound within at most `hostCount × replicaNum` scan steps. -/
theorem C1_getKeyLeast_terminates (hashFunc : String → Nat) (c : Consistent)
    (key : String) (hw : wf c) (hne : c.hostMap ≠ [])
    (hload : sumLoads c.hostMap ≤ c.totalLoad) :
    ∃ h, GetKeyLeast hashFunc c key (c.hostMap.length * c.replicaNum) =
      some (.ok h, clampState c) :=
  GetKeyLeast_bounded hashFunc key hw hne hload

/-- C1 (witness): the amended theorem applied to the concrete state
`exGood`. -/
theorem C1_witness :
    ∃ h, GetKeyLeast exHash exGood "k" (exGood.hostMap.length * exGood.replicaNum) =
      some (.ok h, clampState exGood) :=
  C1_getKeyLeast_terminates exHash exGood "k" (by unfold wf; decide) (by decide)
    (by decide)

/-- C2 (counterexample): with zero registered hosts (any fresh instance)
`MaxLoad` divides `totalLoad` by `len(hostMap) = 0` — an integer
division-by-zero panic — instead of returning the claimed
`ceil((1/1) × 1.25) = 2`; the code clamps `totalLoad` and the *quotient* to
1, never `hostCount`. -/
theorem C2_counterexample : MaxLoad (NewConsistent 10) = none := rfl

/-- C2 (amended): with at least one registered host, `MaxLoad` returns
`ceil(q × (1 + loadBoundFactor))` where `q` is the truncating integer
quotient of (`totalLoad`, replaced by 1 when zero — a persistent receiver
mutation) by `hostCount`, with `q` itself replaced by 1 when zero; with zero
hosts it panics on division by zero. -/
theorem C2_maxLoad (c : Consistent) (hne : c.hostMap ≠ []) :
    MaxLoad c = some (goCeil125
        (if (if c.totalLoad = 0 then 1 else c.totalLoad).tdiv c.hostMap.length = 0
          then 1
          else (if c.totalLoad = 0 then 1 else c.totalLoad).tdiv c.hostMap.length),
      { c with totalLoad := if c.totalLoad = 0 then 1 else c.totalLoad }) :=
  MaxLoad_spec (fun h0 => hne (List.length_eq_zero.mp h0))

/-- C2 (witness): the amended theorem applied to `exGood`
(`totalLoad 0 → 1`, quotient 1, ceiling 2). -/
theorem C2_witness :
    MaxLoad exGood = some (2, { exGood with totalLoad := 1 }) := by
  rw [C2_maxLoad exGood (by decide)]
  rfl

/-- C3 (counterexample): on the freshly-registered state `exReg` the
aggregate equals the per-host sum (both 0), yet a single `MaxLoad` call sets
the aggregate to 1 with no per-host change, breaking the claimed invariant. -/
theorem C3_counterexample :
    sumLoads exReg.hostMap = exReg.totalLoad ∧
      (MaxLoad exReg).map (fun p => decide (sumLoads p.2.hostMap = p.2.totalLoad)) =
        some false := ⟨rfl, rfl⟩

/-- C3 (amended): `RegisterHost`, `UpdateLoad`, `Done` and `Inc` preserve
"aggregate = sum of per-host loads"; `UnregisterHost` preserves it only when
the removed host's load is zero (it drops the load from the sum without
touching the aggregate); `MaxLoad` preserves it only when the aggregate is
nonzero (its zero-clamp mutates the aggregate alone), and `GetKeyLeast` only
when the aggregate is nonnegative (its negative-clamp mutates the aggregate
alone). -/
theorem C3_aggregate (hashFunc : String → Nat) (c : Consistent) (h : String)
    (load : Int) (key : String) (fuel : Nat)
    (hbal : sumLoads c.hostMap = c.totalLoad) :
    sumLoads (RegisterHost hashFunc c h).2.hostMap =
        (RegisterHost hashFunc c h).2.totalLoad ∧
      sumLoads (UpdateLoad c h load).hostMap = (UpdateLoad c h load).totalLoad ∧
      sumLoads (Done c h).hostMap = (Done c h).totalLoad ∧
      (∀ c', Inc c h = some c' → sumLoads c'.hostMap = c'.totalLoad) ∧
      (∀ c', UnregisterHost hashFunc c h = (none, c') →
        lookupA c.hostMap h = some 0 → sumLoads c'.hostMap = c'.totalLoad) ∧
      (∀ v c', MaxLoad c = some (v, c') → c.totalLoad ≠ 0 →
        sumLoads c'.hostMap = c'.totalLoad) ∧
      (∀ r c', GetKeyLeast hashFunc c key fuel = some (r, c') →
        0 ≤ c.totalLoad → sumLoads c'.hostMap = c'.totalLoad) := by
  refine ⟨?_, ?_, ?_, ?_, ?_, ?_, ?_⟩
  · by_cases hm : h ∈ c.hostMap.map Prod.fst
    · rw [RegisterHost_mem hashFunc c h hm]
      exact hbal
    · rw [RegisterHost_not_mem hashFunc c h hm]
      simp only []
      rw [sumLoads_append_zero]
      exact hbal
  · cases hl : lookupA c.hostMap h with
    | none => rw [UpdateLoad_none hl]; exact hbal
    | some old =>
      rw [UpdateLoad_some hl load]
      simp only []
      rw [sumLoads_insertA hl]
      omega
  · cases hl : lookupA c.hostMap h with
    | none => rw [Done_none hl]; exact hbal
    | some v =>
      rw [Done_some hl]
      simp only []
      rw [sumLoads_insertA hl]
      omega
  · intro c' heq
    cases hl : lookupA c.hostMap h with
    | none => rw [Inc_none hl] at heq; exact absurd heq (by simp)
    | some v =>
      rw [Inc_some hl] at heq
      injection heq with heq2
      rw [← heq2]
      simp only []
      rw [sumLoads_insertA hl]
      omega
  · intro c' heq hzero
    by_cases hm : h ∈ c.hostMap.map Prod.fst
    · have hc' : (UnregisterHost hashFunc c h).2 = c' := by rw [heq]
      rw [← hc', UnregisterHost_hostMap hashFunc c h hm, UnregisterHost_totalLoad]
      rw [sumLoads_eraseA hzero]
      omega
    · rw [UnregisterHost_not_mem hashFunc c h hm] at heq
      injection heq with h1 h2
      exact absurd h1 (by simp)
  · intro v c' heq h0
    rw [MaxLoad_state heq h0]
    exact hbal
  · intro r c' heq h0
    rcases GetKeyLeast_state heq with rfl | rfl
    · exact hbal
    · rw [clampState_of_nonneg h0]
      exact hbal

/-- C3 (witness): the amended theorem applied to `exGood` (`Done` branch). -/
theorem C3_witness :
    sumLoads (Done exGood "b").hostMap = (Done exGood "b").totalLoad :=
  (C3_aggregate exHash exGood "b" 3 "k" 1 (by decide)).2.2.1

/-- C4: after any sequence of `RegisterHost`/`UnregisterHost` calls
(successful or failed) from a fresh instance, the ring length equals
`hostCount × replicaNum`; moreover every successful `RegisterHost` adds
exactly `replicaNum` ring entries and one registry entry. -/
theorem C4_ring_length :
    (∀ (hashFunc : String → Nat) (n : Int) (ops : List RegOp),
      (applyRegOps hashFunc ops (NewConsistent n)).sortedHostsHashSet.length =
        (applyRegOps hashFunc ops (NewConsistent n)).hostMap.length *
          (applyRegOps hashFunc ops (NewConsistent n)).replicaNum) ∧
    (∀ (hashFunc : String → Nat) (c c' : Consistent) (h : String),
      RegisterHost hashFunc c h = (none, c') →
      c'.sortedHostsHashSet.length = c.sortedHostsHashSet.length + c.replicaNum ∧
        c'.hostMap.length = c.hostMap.length + 1) := by
  constructor
  · intro hashFunc n ops
    exact ringInv_length hashFunc (ringInv_applyRegOps hashFunc ops
      (ringInv_new hashFunc n))
  · intro hashFunc c c' h heq
    exact RegisterHost_success_lengths heq

/-- C4 (witness): a successful concrete registration adds one replica hash
and one registry entry. -/
theorem C4_witness :
    exReg.sortedHostsHashSet.length =
        (NewConsistent 1).sortedHostsHashSet.length + (NewConsistent 1).replicaNum ∧
      exReg.hostMap.length = (NewConsistent 1).hostMap.length + 1 :=
  C4_ring_length.2 exHash (NewConsistent 1) exReg "a" rfl

/-- C5: on every well-formed state with at least one registered host,
`GetKey` returns exactly the host owning the first ring entry `≥ hash(key)`,
wrapping to the entry at index 0 when none exists (`getKeySpec`, written
from the spec's words), and it returns a host (no failure). -/
theorem C5_getKey_successor (hashFunc : String → Nat) (c : Consistent)
    (key : String) (hw : wf c) (hne : c.hostMap ≠ []) :
    GetKey hashFunc c key = getKeySpec hashFunc c key ∧
      (GetKey hashFunc c key).isSome := by
  refine ⟨GetKey_eq_spec hashFunc c key (wf_ring_ne_nil hw hne), ?_⟩
  obtain ⟨h, hh, _⟩ := GetKey_some_of_wf hashFunc key hw hne
  rw [hh]
  rfl

/-- C5 (witness): the theorem applied to `exGood`. -/
theorem C5_witness :
    GetKey exHash exGood "k" = getKeySpec exHash exGood "k" ∧
      (GetKey exHash exGood "k").isSome :=
  C5_getKey_successor exHash exGood "k" (by unfold wf; decide) (by decide)

/-- C6: error returns are atomic — a duplicate `RegisterHost`, an unknown
`UnregisterHost`, and `GetKeyLeast` on an empty ring each return their error
with the entire state unchanged. -/
theorem C6_error_atomicity (hashFunc : String → Nat) (c : Consistent)
    (h : String) (key : String) :
    (h ∈ c.hostMap.map Prod.fst →
      RegisterHost hashFunc c h = (some .hostAlreadyExists, c)) ∧
    (h ∉ c.hostMap.map Prod.fst →
      UnregisterHost hashFunc c h = (some .hostNotFound, c)) ∧
    (c.replicaHostMap.length = 0 → ∀ fuel,
      GetKeyLeast hashFunc c key fuel = some (.error .hostNotFound, c)) := by
  refine ⟨RegisterHost_mem hashFunc c h, UnregisterHost_not_mem hashFunc c h, ?_⟩
  intro hz fuel
  rw [GetKeyLeast, if_pos hz]

/-- C6 (witness): duplicate registration of `"b"` on `exGood` fails without
state change. -/
theorem C6_witness :
    RegisterHost exHash exGood "b" = (some .hostAlreadyExists, exGood) :=
  (C6_error_atomicity exHash exGood "b" "k").1 (by decide)

/-- C7 (counterexample): `Inc` on a host that is not registered reads a nil
`*Host` from the map and the atomic add dereferences it — a panic, not the
claimed error-free completion. -/
theorem C7_counterexample : Inc (NewConsistent 10) "a" = none := rfl

/-- C7 (amended): on a registered host, `Inc` adds exactly 1 to that host's
load and to the aggregate, and `Done` subtracts exactly 1 from both; `Done`
on an unknown host is a no-op; but `Inc` on an unknown host panics (nil-map
dereference). -/
theorem C7_inc_done (c : Consistent) (h : String) :
    (lookupA c.hostMap h = none → Inc c h = none) ∧
    (∀ v, lookupA c.hostMap h = some v → ∃ c', Inc c h = some c' ∧
      lookupA c'.hostMap h = some (v + 1) ∧ c'.totalLoad = c.totalLoad + 1 ∧
      sumLoads c'.hostMap = sumLoads c.hostMap + 1) ∧
    (lookupA c.hostMap h = none → Done c h = c) ∧
    (∀ v, lookupA c.hostMap h = some v →
      lookupA (Done c h).hostMap h = some (v - 1) ∧
      (Done c h).totalLoad = c.totalLoad - 1 ∧
      sumLoads (Done c h).hostMap = sumLoads c.hostMap - 1) := by
  refine ⟨Inc_none, ?_, Done_none, ?_⟩
  · intro v hv
    refine ⟨_, Inc_some hv, ?_, rfl, ?_⟩
    · exact lookupA_insertA_self c.hostMap h (v + 1)
    · show sumLoads (insertA c.hostMap h (v + 1)) = sumLoads c.hostMap + 1
      rw [sumLoads_insertA hv]
      omega
  · intro v hv
    rw [Done_some hv]
    refine ⟨lookupA_insertA_self c.hostMap h (v - 1), rfl, ?_⟩
    show sumLoads (insertA c.hostMap h (v - 1)) = sumLoads c.hostMap - 1
    rw [sumLoads_insertA hv]
    omega

/-- C7 (witness): the amended theorem's `Done` branch applied to `exGood`. -/
theorem C7_witness :
    lookupA (Done exGood "b").hostMap "b" = some (0 - 1) ∧
      (Done exGood "b").totalLoad = exGood.totalLoad - 1 ∧
      sumLoads (Done exGood "b").hostMap = sumLoads exGood.hostMap - 1 :=
  (C7_inc_done exGood "b").2.2.2 0 (by decide)

/-- C8: on every well-formed state, `GetKey` returns a registered host name
whenever at least one host is registered, and its panic branch (indexing the
empty ring) is reached exactly when zero hosts are registered. -/
theorem C8_getKey_safety (hashFunc : String → Nat) (c : Consistent)
    (key : String) (hw : wf c) :
    (c.hostMap ≠ [] → ∃ h, GetKey hashFunc c key = some h ∧
      h ∈ c.hostMap.map Prod.fst) ∧
    (c.hostMap = [] → GetKey hashFunc c key = none) :=
  ⟨fun hne => GetKey_some_of_wf hashFunc key hw hne,
    fun hempty => GetKey_none_of_no_hosts hashFunc key hw hempty⟩

/-- C8 (witness): the theorem applied to `exGood`. -/
theorem C8_witness :
    ∃ h, GetKey exHash exGood "k" = some h ∧ h ∈ exGood.hostMap.map Prod.fst :=
  (C8_getKey_safety exHash exGood "k" (by unfold wf; decide)).1 (by decide)

/-- C9 (counterexample): on the API-reachable state `exNeg`
(aggregate −1), `GetKeyLeast` returns a host *and* persistently clamps the
aggregate to 0 — the state is not left exactly as before the call. -/
theorem C9_counterexample :
    (GetKeyLeast exHash exNeg "k" 1).map (fun p => p.2.totalLoad) = some 0 ∧
      exNeg.totalLoad = -1 := ⟨rfl, rfl⟩

/-- C9 (amended): `GetKeyLeast` never touches the ring, the hash→host
mapping, the registry, or any per-host load (in particular it never
increments a load), and it leaves the aggregate unchanged except for one
case: a negative aggregate is clamped to 0 by its capacity check. -/
theorem C9_frame (hashFunc : String → Nat) (c : Consistent) (key : String)
    (fuel : Nat) :
    ∀ r c', GetKeyLeast hashFunc c key fuel = some (r, c') →
      c'.hostMap = c.hostMap ∧ c'.replicaHostMap = c.replicaHostMap ∧
      c'.sortedHostsHashSet = c.sortedHostsHashSet ∧
      c'.replicaNum = c.replicaNum ∧
      (0 ≤ c.totalLoad → c' = c) ∧
      (c'.totalLoad = c.totalLoad ∨ (c.totalLoad < 0 ∧ c'.totalLoad = 0)) := by
  intro r c' heq
  rcases GetKeyLeast_state heq with rfl | rfl
  · exact ⟨rfl, rfl, rfl, rfl, fun _ => rfl, Or.inl rfl⟩
  · refine ⟨clampState_hostMap c, clampState_replicaHostMap c, clampState_ring c,
      clampState_replicaNum c, fun h0 => clampState_of_nonneg h0, ?_⟩
    rw [clampState_totalLoad]
    by_cases h0 : 0 ≤ c.totalLoad
    · left
      omega
    · right
      omega

/-- C9 (witness): the amended theorem applied to a concrete returning run on
`exGood`. -/
theorem C9_witness :
    exGood.hostMap = exGood.hostMap ∧ exGood.replicaHostMap = exGood.replicaHostMap ∧
      exGood.sortedHostsHashSet = exGood.sortedHostsHashSet ∧
      exGood.replicaNum = exGood.replicaNum ∧
      (0 ≤ exGood.totalLoad → exGood = exGood) ∧
      (exGood.totalLoad = exGood.totalLoad ∨
        (exGood.totalLoad < 0 ∧ exGood.totalLoad = 0)) :=
  C9_frame exHash exGood "k" 1 (.ok "b") exGood rfl

/-- C10: from a well-formed state, registering a fresh host whose replica
hashes neither collide with the ring nor with each other and then
unregistering it restores the ring sequence, the hash→host mapping, and the
host registry exactly. -/
theorem C10_roundtrip (hashFunc : String → Nat) (c : Consistent) (h : String)
    (hw : wf c) (hhost : h ∉ c.hostMap.map Prod.fst)
    (hnodup : (hostHashes hashFunc c.replicaNum h).Nodup)
    (hfresh : ∀ v ∈ hostHashes hashFunc c.replicaNum h,
      v ∉ c.sortedHostsHashSet) :
    (UnregisterHost hashFunc (RegisterHost hashFunc c h).2 h).2.sortedHostsHashSet =
        c.sortedHostsHashSet ∧
      (UnregisterHost hashFunc (RegisterHost hashFunc c h).2 h).2.replicaHostMap =
        c.replicaHostMap ∧
      (UnregisterHost hashFunc (RegisterHost hashFunc c h).2 h).2.hostMap =
        c.hostMap := by
  have hfreshmap : ∀ v ∈ hostHashes hashFunc c.replicaNum h,
      v ∉ c.replicaHostMap.map Prod.fst := by
    intro v hv hmem
    exact hfresh v hv (hw.2.1.mem_iff.mpr hmem)
  exact roundtrip_fields hashFunc h hw.1 hhost hnodup hfresh hfreshmap

/-- C10 (witness): the theorem applied to `exGood` and the fresh host `"cc"`
(replica hash 3, absent from the ring `[2]`). -/
theorem C10_witness :
    (UnregisterHost exHash (RegisterHost exHash exGood "cc").2 "cc").2.sortedHostsHashSet =
        exGood.sortedHostsHashSet ∧
      (UnregisterHost exHash (RegisterHost exHash exGood "cc").2 "cc").2.replicaHostMap =
        exGood.replicaHostMap ∧
      (UnregisterHost exHash (RegisterHost exHash exGood "cc").2 "cc").2.hostMap =
        exGood.hostMap :=
  C10_roundtrip exHash exGood "cc" (by unfold wf; decide) (by decide) (by decide)
    (by decide)

end CHash
